import Mathlib

/-!
Shallow embedding of the ts-array-joins library (grouping and join
operators over in-memory sequences of records) together with proofs of
the specification's claims about it.

Records are JavaScript objects with named fields; field values are
modelled by the inductive type `JsValue` below (numbers are modelled as
integers).  JavaScript `Map`s are modelled as association lists keyed by
values, plain objects used as dictionaries as association lists keyed by
strings.  Key-enumeration order of plain objects follows the ECMAScript
rule: array-index keys first in ascending numeric order, then the
remaining string keys in insertion order.
-/

namespace TsArrayJoins

/-- A JavaScript value as used by the library: primitive scalars,
`null`/`undefined`, arrays, and plain objects (fields in insertion
order). -/
inductive JsValue where
  | num (n : Int)
  | str (s : String)
  | null
  | undefined
  | arr (elems : List JsValue)
  | obj (fields : List (String × JsValue))

mutual

/-- Structural equality of values (SameValueZero on the modelled
fragment: no NaN and no separate -0 exist in the model). -/
def beqVal : JsValue → JsValue → Bool
  | .num a, .num b => a == b
  | .str a, .str b => a == b
  | .null, .null => true
  | .undefined, .undefined => true
  | .arr a, .arr b => beqVList a b
  | .obj a, .obj b => beqVFields a b
  | _, _ => false

def beqVList : List JsValue → List JsValue → Bool
  | [], [] => true
  | a :: as, b :: bs => beqVal a b && beqVList as bs
  | _, _ => false

def beqVFields : List (String × JsValue) → List (String × JsValue) → Bool
  | [], [] => true
  | (k, a) :: as, (l, b) :: bs => k == l && beqVal a b && beqVFields as bs
  | _, _ => false

end

mutual

theorem beqVal_iff : ∀ a b : JsValue, beqVal a b = true ↔ a = b
  | a, b => by
    cases a <;> cases b <;>
      simp only [beqVal, beq_iff_eq, reduceCtorEq,
        JsValue.num.injEq, JsValue.str.injEq, JsValue.arr.injEq,
        JsValue.obj.injEq, iff_self, Bool.false_eq_true]
    case arr.arr a b => exact beqVList_iff a b
    case obj.obj a b => exact beqVFields_iff a b

theorem beqVList_iff : ∀ a b : List JsValue, beqVList a b = true ↔ a = b
  | [], [] => by simp [beqVList]
  | [], _ :: _ => by simp [beqVList]
  | _ :: _, [] => by simp [beqVList]
  | a :: as, b :: bs => by
    simp only [beqVList, Bool.and_eq_true, List.cons.injEq]
    exact and_congr (beqVal_iff a b) (beqVList_iff as bs)

theorem beqVFields_iff :
    ∀ a b : List (String × JsValue), beqVFields a b = true ↔ a = b
  | [], [] => by simp [beqVFields]
  | [], _ :: _ => by simp [beqVFields]
  | _ :: _, [] => by simp [beqVFields]
  | (k, a) :: as, (l, b) :: bs => by
    simp only [beqVFields, Bool.and_eq_true, List.cons.injEq, Prod.mk.injEq,
      beq_iff_eq]
    rw [beqVal_iff a b, beqVFields_iff as bs, and_assoc]

end

instance : DecidableEq JsValue := fun a b => decidable_of_iff _ (beqVal_iff a b)

/-- A record: a JavaScript object given as its field list in insertion
order (keys unique by construction in JS). -/
abbrev Rec := List (String × JsValue)

/-- `String(v)` for an element rendered inside `Array.prototype.join`:
`null` and `undefined` render as the empty string there. -/
def jsToStringList : List JsValue → List String
  | [] => []
  | v :: vs => (match v with
      | .null => ""
      | .undefined => ""
      | .num n => toString n
      | .str s => s
      | .arr es => String.intercalate "," (jsToStringList es)
      | .obj _ => "[object Object]") :: jsToStringList vs

/-- JavaScript `String(v)` / property-key coercion of a value. -/
def jsToString : JsValue → String
  | .num n => toString n
  | .str s => s
  | .null => "null"
  | .undefined => "undefined"
  | .arr es => String.intercalate "," (jsToStringList es)
  | .obj _ => "[object Object]"

/-- `record[field]`: the value of the field, or `undefined` when the
field is absent. -/
def getField (r : Rec) (f : String) : JsValue :=
  ((r.find? fun p => p.1 = f).map Prod.snd).getD .undefined

/-- `{ ...r, [k]: v }`: spread copies all fields in order, then the
computed property sets `k`; if `k` already exists its value is replaced
in place (JS keeps the original position in property order). -/
def setField (r : Rec) (k : String) (v : JsValue) : Rec :=
  if r.any (fun p => p.1 = k) then
    r.map fun p => if p.1 = k then (k, v) else p
  else
    r ++ [(k, v)]

/-! ### JavaScript `Map` and dictionary-object primitives -/

/-- `Map.get` / dictionary read: first (and, for maps built by the
library, only) entry with the given key. -/
def mapGet {κ α : Type} [DecidableEq κ] (m : List (κ × α)) (k : κ) : Option α :=
  (m.find? fun p => p.1 = k).map Prod.snd

/-- `Map.set` / dictionary write: replace the value in place when the
key is present (keeping its position), else append a new entry. -/
def mapSet {κ α : Type} [DecidableEq κ] (m : List (κ × α)) (k : κ) (v : α) :
    List (κ × α) :=
  if m.any (fun p => p.1 = k) then
    m.map fun p => if p.1 = k then (k, v) else p
  else
    m ++ [(k, v)]

/-- The one-to-many index-building loop body shared by the join sources:
`const existing = map.get(key); if (existing) existing.push(item) else
map.set(key, [item])` (for dictionary objects the source's
`if (!o[k]) o[k] = []; o[k].push(item)` has the same net effect, since
arrays are truthy). -/
def mapPush {κ : Type} [DecidableEq κ] (m : List (κ × List Rec)) (k : κ)
    (x : Rec) : List (κ × List Rec) :=
  match mapGet m k with
  | some ex => mapSet m k (ex ++ [x])
  | none => mapSet m k [x]

/-- Builds the one-to-many child index: one pass over `items`, bucketing
by `key` in input order. -/
def indexMany {κ : Type} [DecidableEq κ] (items : List Rec) (key : Rec → κ) :
    List (κ × List Rec) :=
  items.foldl (fun m c => mapPush m (key c) c) []

/-- Builds the one-to-one (first-wins) child index:
`if (!map.has(key)) map.set(key, child)`. -/
def indexFirst {κ : Type} [DecidableEq κ] (items : List Rec) (key : Rec → κ) :
    List (κ × Rec) :=
  items.foldl (fun m c => if (mapGet m (key c)).isSome then m
                          else mapSet m (key c) c) []

/-! ### Plain-object key enumeration order

ECMAScript enumerates an ordinary object's string keys with array-index
keys first, in ascending numeric order, followed by the remaining keys
in insertion order.  An array index is the canonical decimal form of an
integer in `[0, 2^32-1)`. -/

/-- Decimal digit value of a character, if it is a digit. -/
def charDigit (c : Char) : Option Nat :=
  if 48 ≤ c.toNat ∧ c.toNat ≤ 57 then some (c.toNat - 48) else none

/-- Parse a nonempty all-digit string as a natural number. -/
def strToNatQ (s : String) : Option Nat :=
  match s.data with
  | [] => none
  | cs => cs.foldl (fun acc c =>
      match acc, charDigit c with
      | some n, some d => some (n * 10 + d)
      | _, _ => none) (some 0)

/-- Whether a string is an ECMAScript array-index property key. -/
def isArrayIndexStr (s : String) : Bool :=
  match strToNatQ s with
  | some n => toString n = s && n < 4294967295
  | none => false

/-- Numeric value used to order array-index keys. -/
def keyNatOf (s : String) : Nat := (strToNatQ s).getD 0

/-- `Object.entries` / `for-in` / `Object.keys` order over an
insertion-ordered field list. -/
def objEntries {α : Type} (o : List (String × α)) : List (String × α) :=
  ((o.filter fun p => isArrayIndexStr p.1).insertionSort
      fun a b => keyNatOf a.1 ≤ keyNatOf b.1) ++
    o.filter fun p => !isArrayIndexStr p.1

/-- `Object.keys` order. -/
def objKeys {α : Type} (o : List (String × α)) : List String :=
  (objEntries o).map Prod.fst

/-! ### Composite keys (`src/utils/compositeKey.ts`) -/

/-- `Array.prototype.join(sep)` over already-rendered components. -/
def joinWithSep : List String → String
  | [] => ""
  | [x] => x
  | x :: y :: rest => x ++ "||~~||" ++ joinWithSep (y :: rest)

/-- Rendering of one composite-key component: `String(v ?? "")` (null
and undefined coalesce to the empty string before stringification). -/
def compKeyComponent (v : JsValue) : String :=
  match v with
  | .null => ""
  | .undefined => ""
  | v => jsToString v

/-- `createCompositeKey(values)`:
`values.map(v => String(v ?? "")).join("||~~||")`. -/
def createCompositeKey (values : List JsValue) : String :=
  joinWithSep (values.map compKeyComponent)

/-- `getCompositeKey(item, keys)` (also the behaviour of the closures
produced by `makeCompositeKeyExtractor`): serialize the values of the
given fields. -/
def getCompositeKey (r : Rec) (keys : List String) : String :=
  createCompositeKey (keys.map fun k => getField r k)

/-! ### Grouping engine (`src/groupBy.ts`) -/

/-- `groupBy(items, keySelector)`: one pass, bucketing into a dictionary
object whose property keys are the string coercions of the selector
results. -/
def groupBy (items : List Rec) (sel : Rec → JsValue) :
    List (String × List Rec) :=
  indexMany items fun r => jsToString (sel r)

/-- `groupByKey(items, key)`: same loop reading one named field. -/
def groupByKey (items : List Rec) (key : String) :
    List (String × List Rec) :=
  indexMany items fun r => jsToString (getField r key)

/-! ### Nested groups (`src/utils/nestedGroup.ts`) -/

/-- `createNestedGroups(items, keys)`: zero keys returns the raw array;
one key returns a flat dictionary of buckets; more keys group by the
first key and recurse over `Object.entries` of the first-level groups. -/
def createNestedGroups (items : List Rec) : List String → JsValue
  | [] => .arr (items.map .obj)
  | [k] =>
      .obj ((indexMany items fun r => jsToString (getField r k)).map
        fun p => (p.1, JsValue.arr (p.2.map .obj)))
  | k :: k2 :: rest =>
      .obj ((objEntries (indexMany items fun r => jsToString (getField r k))).map
        fun p => (p.1, createNestedGroups p.2 (k2 :: rest)))

/-- One step of the `getFromNestedGroups` walk: the guard
`current && typeof current === "object" && key !== null &&
key !== undefined && key in current` (truthiness and the typeof test
leave exactly arrays and non-null objects; `in` checks an object's own
fields, or an array's in-range indices and `"length"`). -/
def ngHasKey : JsValue → JsValue → Bool
  | .obj fs, key => key ≠ .null && key ≠ .undefined &&
      fs.any fun p => p.1 = jsToString key
  | .arr es, key => key ≠ .null && key ≠ .undefined &&
      ((isArrayIndexStr (jsToString key) && keyNatOf (jsToString key) < es.length) ||
        jsToString key = "length")
  | _, _ => false

/-- `current[key]` for the walk (only ever used when `ngHasKey`). -/
def ngIndex : JsValue → JsValue → JsValue
  | .obj fs, key => ((fs.find? fun p => p.1 = jsToString key).map Prod.snd).getD .undefined
  | .arr es, key =>
      if jsToString key = "length" then .num es.length
      else (es.get? (keyNatOf (jsToString key))).getD .undefined
  | _, _ => .undefined

/-- The `for (const key of path)` loop followed by the final
`Array.isArray(current) ? current : []`. -/
def ngWalk : JsValue → List JsValue → List JsValue
  | current, [] => match current with
      | .arr es => es
      | _ => []
  | current, key :: rest =>
      if ngHasKey current key then ngWalk (ngIndex current key) rest else []

/-- `getFromNestedGroups(nestedGroups, path)`: empty path returns the
tree itself when it is an array, else empty; otherwise walk the path. -/
def getFromNestedGroups (nested : JsValue) (path : List JsValue) :
    List JsValue :=
  if path.isEmpty then
    match nested with
    | .arr es => es
    | _ => []
  else ngWalk nested path

/-- `groupByMany(items, keys)`: zero keys returns the raw array, one key
is `groupByKey`, more keys group by the first key via `groupByKey` and
recurse over `Object.entries`. -/
def groupByMany (items : List Rec) : List String → JsValue
  | [] => .arr (items.map .obj)
  | [k] => .obj ((groupByKey items k).map fun p => (p.1, JsValue.arr (p.2.map .obj)))
  | k :: k2 :: rest =>
      .obj ((objEntries (groupByKey items k)).map
        fun p => (p.1, groupByMany p.2 (k2 :: rest)))

/-! ### Flat joins (`attachChildren.ts`, `attachChild.ts`,
`joinBySelectors.ts`) -/

/-- `attachChildren({parents, children, parentKey, childKey, as})`:
index children by `child[childKey]` in a `Map`, then for each parent in
order attach `map.get(parent[parentKey]) ?? []` under `as`. -/
def attachChildren (parents children : List Rec)
    (parentKey childKey : String) (as : String) : List Rec :=
  let childrenByKey := indexMany children fun c => getField c childKey
  parents.map fun parent =>
    let matching := (mapGet childrenByKey (getField parent parentKey)).getD []
    setField parent as (.arr (matching.map .obj))

/-- `attachChild({parents, children, parentKey, childKey, as})`:
first-wins index, then attach `map.get(parent[parentKey]) ?? null`. -/
def attachChild (parents children : List Rec)
    (parentKey childKey : String) (as : String) : List Rec :=
  let childByKey := indexFirst children fun c => getField c childKey
  parents.map fun parent =>
    let matching := mapGet childByKey (getField parent parentKey)
    setField parent as ((matching.map .obj).getD .null)

/-- The `mode` parameter of `joinBySelectors` and the cardinality values
of the three-level join: the closed choice `"one" | "many"`. -/
inductive Cardinality where
  | one
  | many
deriving DecidableEq

/-- `joinBySelectors({parents, children, parentSelector, childSelector,
as, mode})`. -/
def joinBySelectors (parents children : List Rec)
    (parentSelector childSelector : Rec → JsValue) (as : String)
    (mode : Cardinality) : List Rec :=
  match mode with
  | .many =>
      let childrenByKey := indexMany children childSelector
      parents.map fun parent =>
        let matching := (mapGet childrenByKey (parentSelector parent)).getD []
        setField parent as (.arr (matching.map .obj))
  | .one =>
      let childByKey := indexFirst children childSelector
      parents.map fun parent =>
        let matching := mapGet childByKey (parentSelector parent)
        setField parent as ((matching.map .obj).getD .null)

/-! ### Composite joins, serialized strategy
(`attachChildrenComposite.ts`, `attachChildComposite.ts`) -/

/-- `attachChildrenComposite`: index children by their serialized
composite key, attach `map.get(serializedParentKey) ?? []`. -/
def attachChildrenComposite (parents children : List Rec)
    (parentKeys childKeys : List String) (as : String) : List Rec :=
  let childrenByKey := indexMany children fun c => getCompositeKey c childKeys
  parents.map fun parent =>
    let matching := (mapGet childrenByKey (getCompositeKey parent parentKeys)).getD []
    setField parent as (.arr (matching.map .obj))

/-- `attachChildComposite`: first-wins serialized index, attach
`map.get(...) ?? null`. -/
def attachChildComposite (parents children : List Rec)
    (parentKeys childKeys : List String) (as : String) : List Rec :=
  let childByKey := indexFirst children fun c => getCompositeKey c childKeys
  parents.map fun parent =>
    let matching := mapGet childByKey (getCompositeKey parent parentKeys)
    setField parent as ((matching.map .obj).getD .null)

/-! ### Composite joins, nested strategy (`attachChildrenNested.ts`,
`attachChildNested.ts`) -/

/-- `attachChildrenNested`: build the nested group tree over the child
key fields, then for each parent look up the path of its key values. -/
def attachChildrenNested (parents children : List Rec)
    (parentKeys childKeys : List String) (as : String) : List Rec :=
  let nestedGroups := createNestedGroups children childKeys
  parents.map fun parent =>
    let path := parentKeys.map fun k => getField parent k
    let matching := getFromNestedGroups nestedGroups path
    setField parent as (.arr matching)

/-- `attachChildNested`: nested lookup, then
`matching.length > 0 ? matching[0] : null`. -/
def attachChildNested (parents children : List Rec)
    (parentKeys childKeys : List String) (as : String) : List Rec :=
  let nestedGroups := createNestedGroups children childKeys
  parents.map fun parent =>
    let path := parentKeys.map fun k => getField parent k
    let matching := getFromNestedGroups nestedGroups path
    setField parent as (matching.head?.getD .null)

/-! ### Three-level filtered join (`attachChildrenWithFilter.ts`) -/

/-- Cardinality resolution of the three-level join:
`card === "one" ? list[0] ?? undefined : list` (list elements are
records, hence never null/undefined themselves). -/
def resolveCard (card : Cardinality) (l : List JsValue) : JsValue :=
  match card with
  | .one => l.head?.getD .undefined
  | .many => .arr l

/-- `attachChildrenWithFilter`: index children by `child[childKey]`;
for each parent, enrich every middle record (full catalog, in order)
with the children matching the middle key, filtered to those owned by
the parent (`child[childParentKey] === parent[parentKey]`), resolving
`childCardinality`; then attach the enriched middle sequence resolving
`middleCardinality`. -/
def attachChildrenWithFilter (parents middle children : List Rec)
    (parentKey childParentKey middleKey childKey : String)
    (middleAs childAs : String)
    (middleCardinality childCardinality : Cardinality) : List Rec :=
  let childrenByMiddleKey := indexMany children fun c => getField c childKey
  parents.map fun parent =>
    let parentKeyValue := getField parent parentKey
    let middleWithChildren := middle.map fun mid =>
      let allChildrenForMiddle :=
        (mapGet childrenByMiddleKey (getField mid middleKey)).getD []
      let matching := allChildrenForMiddle.filter
        fun child => getField child childParentKey = parentKeyValue
      setField mid childAs (resolveCard childCardinality (matching.map .obj))
    setField parent middleAs
      (resolveCard middleCardinality (middleWithChildren.map .obj))

/-! ## Lemma layer -/

theorem find?_cons_eq_ite {α : Type} (p : α → Bool) (x : α) (l : List α) :
    (x :: l).find? p = if p x = true then some x else l.find? p := by
  by_cases h : p x = true
  · rw [if_pos h]
    exact List.find?_cons_of_pos _ h
  · rw [if_neg h]
    exact List.find?_cons_of_neg _ h

section MapLemmas

variable {κ α : Type} [DecidableEq κ]

theorem mapGet_replace_ne (m : List (κ × α)) (k k' : κ) (v : α) (h : k' ≠ k) :
    mapGet (m.map fun p => if p.1 = k then (k, v) else p) k' = mapGet m k' := by
  induction m with
  | nil => rfl
  | cons a m ih =>
    simp only [List.map_cons, mapGet, find?_cons_eq_ite, decide_eq_true_eq]
    by_cases hak : a.1 = k
    · have h2 : ¬ a.1 = k' := fun h' => h (h'.symm.trans hak)
      rw [if_pos hak, if_neg (show ¬ ((k, v) : κ × α).1 = k' from fun h' => h h'.symm),
        if_neg h2]
      exact ih
    · rw [if_neg hak]
      by_cases ha' : a.1 = k'
      · rw [if_pos ha', if_pos ha']
      · rw [if_neg ha', if_neg ha']
        exact ih

theorem mapGet_replace_self (m : List (κ × α)) (k : κ) (v : α)
    (h : m.any (fun p => p.1 = k) = true) :
    mapGet (m.map fun p => if p.1 = k then (k, v) else p) k = some v := by
  induction m with
  | nil => simp at h
  | cons a m ih =>
    simp only [List.map_cons, mapGet, find?_cons_eq_ite, decide_eq_true_eq]
    by_cases hak : a.1 = k
    · rw [if_pos hak, if_pos (show ((k, v) : κ × α).1 = k from rfl)]
      rfl
    · simp only [List.any_cons, Bool.or_eq_true, decide_eq_true_eq] at h
      rcases h with h | h
      · exact absurd h hak
      · rw [if_neg hak, if_neg hak]
        exact ih h

theorem mapGet_mapSet (m : List (κ × α)) (k k' : κ) (v : α) :
    mapGet (mapSet m k v) k' = if k' = k then some v else mapGet m k' := by
  by_cases hany : m.any (fun p => p.1 = k) = true
  · rw [mapSet, if_pos hany]
    by_cases hk : k' = k
    · subst hk; rw [if_pos rfl]; exact mapGet_replace_self m k' v hany
    · rw [if_neg hk]; exact mapGet_replace_ne m k k' v hk
  · rw [mapSet, if_neg hany]
    by_cases hk : k' = k
    · subst hk
      have hfind : m.find? (fun p => decide (p.1 = k')) = none := by
        rw [List.find?_eq_none]
        intro p hp
        simp only [decide_eq_true_eq]
        intro hpk
        exact hany (List.any_eq_true.mpr ⟨p, hp, by simp [hpk]⟩)
      rw [if_pos rfl]
      simp [mapGet, List.find?_append, hfind]
    · have hne : (([(k, v)] : List (κ × α)).find? fun p => decide (p.1 = k')) = none := by
        rw [List.find?_eq_none]
        intro p hp
        simp only [List.mem_singleton] at hp
        subst hp
        simp only [decide_eq_true_eq]
        exact fun h => hk h.symm
      rw [if_neg hk]
      simp only [mapGet, List.find?_append, hne, Option.or_none]

/-- Read-after-push: pushing onto key `k` appends to exactly that
bucket. -/
theorem mapGetD_mapPush (m : List (κ × List Rec)) (k k' : κ) (x : Rec) :
    (mapGet (mapPush m k x) k').getD [] =
      (mapGet m k').getD [] ++ (if k' = k then [x] else []) := by
  unfold mapPush
  cases hm : mapGet m k with
  | some ex =>
    rw [mapGet_mapSet]
    by_cases hk : k' = k
    · subst hk; simp [hm]
    · simp [hk]
  | none =>
    rw [mapGet_mapSet]
    by_cases hk : k' = k
    · subst hk; simp [hm]
    · simp [hk]

theorem mapGetD_indexMany_loop (items : List Rec) (key : Rec → κ)
    (m : List (κ × List Rec)) (k : κ) :
    (mapGet (items.foldl (fun m c => mapPush m (key c) c) m) k).getD [] =
      (mapGet m k).getD [] ++ items.filter (fun c => key c = k) := by
  induction items generalizing m with
  | nil => simp
  | cons c items ih =>
    simp only [List.foldl_cons, ih, mapGetD_mapPush, List.filter_cons]
    by_cases hk : key c = k
    · simp [hk, List.append_assoc]
    · have : k ≠ key c := fun h => hk h.symm
      simp [hk, this]

/-- The one-to-many index bucket for key `k` is exactly the children
whose key equals `k`, in input order. -/
theorem mapGetD_indexMany (items : List Rec) (key : Rec → κ) (k : κ) :
    (mapGet (indexMany items key) k).getD [] =
      items.filter (fun c => key c = k) := by
  simpa [indexMany] using mapGetD_indexMany_loop items key [] k

theorem mapGet_indexFirst_loop (items : List Rec) (key : Rec → κ)
    (m : List (κ × Rec)) (k : κ) :
    mapGet (items.foldl
        (fun m c => if (mapGet m (key c)).isSome then m else mapSet m (key c) c) m) k =
      (mapGet m k).or (items.find? fun c => key c = k) := by
  induction items generalizing m with
  | nil => simp [Option.or_none]
  | cons c items ih =>
    simp only [List.foldl_cons, find?_cons_eq_ite, decide_eq_true_eq]
    by_cases hsome : (mapGet m (key c)).isSome = true
    · rw [if_pos hsome, ih]
      by_cases hk : key c = k
      · subst hk
        rcases Option.isSome_iff_exists.mp hsome with ⟨r, hr⟩
        simp [hr]
      · rw [if_neg hk]
    · rw [if_neg hsome, ih]
      have hnone : mapGet m (key c) = none := by
        cases h : mapGet m (key c)
        · rfl
        · rw [h] at hsome; simp at hsome
      by_cases hk : key c = k
      · subst hk
        rw [if_pos rfl, mapGet_mapSet, if_pos rfl, hnone]
        rfl
      · rw [if_neg hk, mapGet_mapSet, if_neg (fun h => hk h.symm)]

/-- The first-wins index holds, for each key, the first child with that
key in input order. -/
theorem mapGet_indexFirst (items : List Rec) (key : Rec → κ) (k : κ) :
    mapGet (indexFirst items key) k = items.find? fun c => key c = k := by
  simpa [indexFirst, mapGet] using mapGet_indexFirst_loop items key [] k

end MapLemmas

/-- First-seen deduplication (insertion order of dictionary keys),
relative to a list of already-seen keys. -/
def firstSeenAux (seen : List String) : List String → List String
  | [] => []
  | x :: xs =>
      if x ∈ seen then firstSeenAux seen xs
      else x :: firstSeenAux (seen ++ [x]) xs

/-- The distinct values of a list in order of first occurrence. -/
def firstSeen (l : List String) : List String :=
  firstSeenAux [] l

section KeyOrderLemmas

variable {κ α : Type} [DecidableEq κ]

theorem mapGet_eq_none_iff (m : List (κ × α)) (k : κ) :
    mapGet m k = none ↔ (m.any fun p => p.1 = k) = false := by
  constructor
  · intro h
    rw [Bool.eq_false_iff]
    intro hany
    rcases List.any_eq_true.mp hany with ⟨p, hp, hpk⟩
    have : m.find? (fun p => decide (p.1 = k)) = none := by
      cases hf : m.find? fun p => decide (p.1 = k)
      · rfl
      · simp [mapGet, hf] at h
    rw [List.find?_eq_none] at this
    exact this p hp hpk
  · intro h
    have : m.find? (fun p => decide (p.1 = k)) = none := by
      rw [List.find?_eq_none]
      intro p hp hpk
      have : (m.any fun p => p.1 = k) = true :=
        List.any_eq_true.mpr ⟨p, hp, hpk⟩
      rw [this] at h
      exact Bool.true_eq_false.mp h
    simp [mapGet, this]

theorem keys_mapSet_present (m : List (κ × α)) (k : κ) (v : α)
    (h : (m.any fun p => p.1 = k) = true) :
    (mapSet m k v).map Prod.fst = m.map Prod.fst := by
  rw [mapSet, if_pos h, List.map_map]
  apply List.map_congr_left
  intro p _
  by_cases hp : p.1 = k
  · simp [hp]
  · simp [hp]

theorem keys_mapSet_absent (m : List (κ × α)) (k : κ) (v : α)
    (h : ¬ (m.any fun p => p.1 = k) = true) :
    (mapSet m k v).map Prod.fst = m.map Prod.fst ++ [k] := by
  rw [mapSet, if_neg h, List.map_append]
  rfl

theorem keys_mapPush (m : List (κ × List Rec)) (k : κ) (x : Rec) :
    (mapPush m k x).map Prod.fst =
      if (m.any fun p => p.1 = k) = true then m.map Prod.fst
      else m.map Prod.fst ++ [k] := by
  unfold mapPush
  cases hm : mapGet m k with
  | some ex =>
    have hany : (m.any fun p => p.1 = k) = true := by
      by_contra hc
      rw [(mapGet_eq_none_iff m k).mpr (Bool.eq_false_iff.mpr hc)] at hm
      cases hm
    rw [if_pos hany]
    exact keys_mapSet_present m k _ hany
  | none =>
    have hany : ¬ (m.any fun p => p.1 = k) = true := by
      rw [(mapGet_eq_none_iff m k).mp hm]
      exact Bool.false_ne_true
    rw [if_neg hany]
    exact keys_mapSet_absent m k _ hany

/-- Keys of the grouping fold, in insertion order, continue the accumulator's
keys with the first-seen order of the incoming keys. -/
theorem keys_groupFold (items : List Rec) (gkey : Rec → String)
    (acc : List (String × List Rec)) :
    (items.foldl (fun acc r => mapPush acc (gkey r) r) acc).map Prod.fst =
      acc.map Prod.fst ++ firstSeenAux (acc.map Prod.fst) (items.map gkey) := by
  induction items generalizing acc with
  | nil => simp [firstSeenAux]
  | cons r items ih =>
    simp only [List.foldl_cons, List.map_cons, firstSeenAux, ih, keys_mapPush]
    by_cases hmem : gkey r ∈ acc.map Prod.fst
    · have hany : (acc.any fun p => p.1 = gkey r) = true := by
        rcases List.mem_map.mp hmem with ⟨p, hp, hpk⟩
        exact List.any_eq_true.mpr ⟨p, hp, by simp [hpk]⟩
      rw [if_pos hany, if_pos hmem]
    · have hany : ¬ (acc.any fun p => p.1 = gkey r) = true := by
        intro hc
        rcases List.any_eq_true.mp hc with ⟨p, hp, hpk⟩
        exact hmem (List.mem_map.mpr ⟨p, hp, by simpa using hpk⟩)
      rw [if_neg hany, if_neg hmem]
      simp [List.append_assoc]

theorem mem_firstSeenAux (seen : List String) (l : List String) (x : String) :
    x ∈ firstSeenAux seen l ↔ x ∈ l ∧ x ∉ seen := by
  induction l generalizing seen with
  | nil => simp [firstSeenAux]
  | cons a l ih =>
    simp only [firstSeenAux]
    by_cases ha : a ∈ seen
    · rw [if_pos ha, ih]
      constructor
      · rintro ⟨hl, hs⟩
        exact ⟨List.mem_cons_of_mem _ hl, hs⟩
      · rintro ⟨hl, hs⟩
        rcases List.mem_cons.mp hl with rfl | hl
        · exact absurd ha hs
        · exact ⟨hl, hs⟩
    · rw [if_neg ha]
      simp only [List.mem_cons, ih, List.mem_append, List.mem_singleton]
      constructor
      · rintro (rfl | ⟨hl, hs⟩)
        · exact ⟨Or.inl rfl, ha⟩
        · refine ⟨Or.inr hl, fun hx => hs (Or.inl hx)⟩
      · rintro ⟨rfl | hl, hs⟩
        · exact Or.inl rfl
        · by_cases hxa : x = a
          · exact Or.inl hxa
          · exact Or.inr ⟨hl, by simp [hs, hxa]⟩

theorem nodup_firstSeenAux (seen : List String) (l : List String) :
    (firstSeenAux seen l).Nodup := by
  induction l generalizing seen with
  | nil => exact List.nodup_nil
  | cons a l ih =>
    simp only [firstSeenAux]
    by_cases ha : a ∈ seen
    · rw [if_pos ha]
      exact ih seen
    · rw [if_neg ha]
      refine List.Nodup.cons ?_ (ih (seen ++ [a]))
      intro hmem
      exact ((mem_firstSeenAux _ _ _).mp hmem).2 (by simp)

end KeyOrderLemmas

section PermLemmas

variable {κ α β : Type} [DecidableEq κ]

/-- Enumeration reorders the entries but keeps the same set. -/
theorem objEntries_perm (o : List (String × α)) : (objEntries o).Perm o := by
  unfold objEntries
  refine List.Perm.trans (List.Perm.append ?_ (List.Perm.refl _))
    (List.filter_append_perm _ o)
  exact List.perm_insertionSort _ _

theorem mapGet_eq_some_iff_mem (l : List (κ × α)) (k : κ) (v : α)
    (hnd : (l.map Prod.fst).Nodup) :
    mapGet l k = some v ↔ (k, v) ∈ l := by
  induction l with
  | nil => simp [mapGet]
  | cons a l ih =>
    rcases a with ⟨k0, v0⟩
    simp only [List.map_cons, List.nodup_cons] at hnd
    simp only [mapGet, find?_cons_eq_ite, decide_eq_true_eq]
    by_cases hk : (k0, v0).1 = k
    · rw [if_pos hk]
      constructor
      · intro hsome
        have hv : v0 = v := by simpa using hsome
        subst hv
        have hk' : k0 = k := hk
        subst hk'
        exact List.mem_cons_self _ _
      · intro hmem
        rcases List.mem_cons.mp hmem with heq | hmem'
        · cases heq
          rfl
        · exfalso
          apply hnd.1
          have hk' : k0 = k := hk
          subst hk'
          exact List.mem_map.mpr ⟨(k0, v), hmem', rfl⟩
    · rw [if_neg hk]
      rw [show (Option.map Prod.snd (l.find? fun p => decide (p.1 = k)))
            = mapGet l k from rfl, ih hnd.2]
      constructor
      · exact List.mem_cons_of_mem _
      · intro h
        rcases List.mem_cons.mp h with h | h
        · cases h
          exact absurd rfl hk
        · exact h

/-- Lookup in an association list with distinct keys is invariant under
permutation of the entries. -/
theorem mapGet_congr_perm (l l' : List (κ × α)) (h : l.Perm l')
    (hnd : (l.map Prod.fst).Nodup) (k : κ) :
    mapGet l k = mapGet l' k := by
  have hnd' : (l'.map Prod.fst).Nodup := ((h.map Prod.fst).nodup_iff).mp hnd
  cases hv : mapGet l k with
  | some v =>
    have := (mapGet_eq_some_iff_mem l k v hnd).mp hv
    exact ((mapGet_eq_some_iff_mem l' k v hnd').mpr (h.mem_iff.mp this)).symm
  | none =>
    symm
    rw [mapGet_eq_none_iff] at hv ⊢
    rw [Bool.eq_false_iff] at hv ⊢
    intro hc
    apply hv
    rcases List.any_eq_true.mp hc with ⟨p, hp, hpk⟩
    exact List.any_eq_true.mpr ⟨p, h.mem_iff.mpr hp, hpk⟩

/-- Lookup commutes with mapping the values of an association list. -/
theorem mapGet_map_pair (l : List (κ × α)) (f : α → β) (k : κ) :
    mapGet (l.map fun p => (p.1, f p.2)) k = (mapGet l k).map f := by
  induction l with
  | nil => rfl
  | cons a l ih =>
    simp only [List.map_cons, mapGet, find?_cons_eq_ite, decide_eq_true_eq]
    by_cases hk : a.1 = k
    · simp [hk]
    · simp only [hk, if_neg, not_false_iff]
      exact ih

end PermLemmas

/-- The string coercions of a record's values at the given key fields,
in key order. -/
def keyStrTuple (r : Rec) (ks : List String) : List String :=
  ks.map fun k => jsToString (getField r k)

/-- Whether a value is `null` or `undefined` (rejected by the
`getFromNestedGroups` walk before the `in` test). -/
def isNullish (v : JsValue) : Bool :=
  decide (v = JsValue.null) || decide (v = JsValue.undefined)

/-- Whether a lookup path contains a `null` or `undefined` component. -/
def hasNullish (path : List JsValue) : Bool :=
  path.any isNullish

section IndexSupport

variable {κ : Type} [DecidableEq κ]

theorem mapGet_mapPush (m : List (κ × List Rec)) (k0 k : κ) (x : Rec) :
    mapGet (mapPush m k0 x) k =
      if k = k0 then some ((mapGet m k0).getD [] ++ [x]) else mapGet m k := by
  unfold mapPush
  cases hm : mapGet m k0 with
  | some ex => rw [mapGet_mapSet]; simp
  | none => rw [mapGet_mapSet]; simp

theorem mapGet_indexMany_loop_none (items : List Rec) (key : Rec → κ)
    (m : List (κ × List Rec)) (k : κ) :
    mapGet (items.foldl (fun m c => mapPush m (key c) c) m) k = none ↔
      mapGet m k = none ∧ ∀ r ∈ items, ¬ key r = k := by
  induction items generalizing m with
  | nil => simp
  | cons c items ih =>
    simp only [List.foldl_cons, ih, mapGet_mapPush]
    by_cases hk : k = key c
    · subst hk
      simp
    · have : ¬ key c = k := fun h => hk h.symm
      simp only [hk, if_neg, not_false_iff, List.mem_cons]
      constructor
      · rintro ⟨h1, h2⟩
        exact ⟨h1, fun r hr => by
          rcases hr with rfl | hr
          · exact this
          · exact h2 r hr⟩
      · rintro ⟨h1, h2⟩
        exact ⟨h1, fun r hr => h2 r (Or.inr hr)⟩

/-- The index is missing key `k` exactly when no item carries it. -/
theorem mapGet_indexMany_none_iff (items : List Rec) (key : Rec → κ) (k : κ) :
    mapGet (indexMany items key) k = none ↔ ∀ r ∈ items, ¬ key r = k := by
  rw [indexMany, mapGet_indexMany_loop_none]
  simp [mapGet]

end IndexSupport

/-- The grouping fold has pairwise-distinct keys. -/
theorem nodup_keys_groupFold (items : List Rec) (gkey : Rec → String) :
    ((indexMany items gkey).map Prod.fst).Nodup := by
  have h := keys_groupFold items gkey []
  simp only [List.map_nil] at h
  rw [indexMany, h]
  simpa using nodup_firstSeenAux [] (items.map gkey)

theorem any_of_perm {α : Type} (p : α → Bool) {l l' : List α} (h : l.Perm l') :
    l.any p = l'.any p := by
  cases hb : l'.any p with
  | true =>
    rcases List.any_eq_true.mp hb with ⟨x, hx, hpx⟩
    exact List.any_eq_true.mpr ⟨x, h.mem_iff.mpr hx, hpx⟩
  | false =>
    rw [List.any_eq_false] at hb ⊢
    exact fun x hx => hb x (h.mem_iff.mp hx)

/-- The index has an entry for key `s` exactly when some item carries
it. -/
theorem any_key_indexMany (items : List Rec) (gkey : Rec → String) (s : String) :
    ((indexMany items gkey).any fun p => p.1 = s) = true ↔
      ∃ r ∈ items, gkey r = s := by
  constructor
  · intro h
    by_contra hc
    push_neg at hc
    have : mapGet (indexMany items gkey) s = none :=
      (mapGet_indexMany_none_iff items gkey s).mpr hc
    rw [(mapGet_eq_none_iff _ s).mp this] at h
    cases h
  · rintro ⟨r, hr, hks⟩
    by_contra hc
    have hfalse : ((indexMany items gkey).any fun p => p.1 = s) = false :=
      Bool.eq_false_iff.mpr hc
    have := (mapGet_eq_none_iff (indexMany items gkey) s).mpr hfalse
    exact ((mapGet_indexMany_none_iff items gkey s).mp this) r hr hks

/-- Lookup through the reordered, value-mapped entries of a grouping
index equals lookup in the index itself. -/
theorem mapGet_objEntries_map (G : List (String × List Rec))
    (hnd : (G.map Prod.fst).Nodup) (f : List Rec → JsValue) (s : String) :
    mapGet ((objEntries G).map fun p => (p.1, f p.2)) s = (mapGet G s).map f := by
  rw [mapGet_map_pair]
  have hperm := objEntries_perm G
  have hnd' : ((objEntries G).map Prod.fst).Nodup :=
    ((hperm.map Prod.fst).nodup_iff).mpr hnd
  rw [mapGet_congr_perm _ _ hperm hnd' s]

theorem getFromNestedGroups_eq_ngWalk (t : JsValue) (p : List JsValue) :
    getFromNestedGroups t p = ngWalk t p := by
  cases p with
  | nil => rfl
  | cons v ps => rfl

/-- Closed form of a nested-group lookup: with a path no longer than the
key tuple, the result is the bucket of items whose stringified key tuple
equals the stringified path — and empty when the lengths differ or the
path contains null/undefined. -/
def ngLookupSpec (items : List Rec) (keys : List String)
    (path : List JsValue) : List JsValue :=
  if path.length = keys.length then
    if hasNullish path = true then []
    else (items.filter fun r =>
      decide (keyStrTuple r keys = path.map jsToString)).map JsValue.obj
  else []

theorem ngIndex_obj (fs : List (String × JsValue)) (v : JsValue) :
    ngIndex (.obj fs) v = (mapGet fs (jsToString v)).getD .undefined := rfl

theorem ngHasKey_obj_nullish (fs : List (String × JsValue)) (v : JsValue)
    (h : isNullish v = true) : ngHasKey (.obj fs) v = false := by
  simp only [isNullish, Bool.or_eq_true, decide_eq_true_eq] at h
  rcases h with rfl | rfl <;> simp [ngHasKey]

theorem ngHasKey_obj (fs : List (String × JsValue)) (v : JsValue)
    (h1 : ¬ v = JsValue.null) (h2 : ¬ v = JsValue.undefined) :
    ngHasKey (.obj fs) v = fs.any fun p => p.1 = jsToString v := by
  simp [ngHasKey, h1, h2]

theorem any_key_map_pair {β : Type} (l : List (String × β)) (f : β → JsValue)
    (s : String) :
    ((l.map fun p => (p.1, f p.2)).any fun p => p.1 = s) =
      l.any fun p => p.1 = s := by
  induction l with
  | nil => rfl
  | cons a l ih =>
    simp only [List.map_cons, List.any_cons, ih]

theorem any_key_map_arrObj (l : List (String × List Rec)) (s : String) :
    ((l.map fun p => (p.1, JsValue.arr (p.2.map JsValue.obj))).any
        fun p => p.1 = s) = l.any fun p => p.1 = s :=
  any_key_map_pair l (fun b => JsValue.arr (b.map JsValue.obj)) s

theorem any_key_map_nested (l : List (String × List Rec)) (ks : List String)
    (s : String) :
    ((l.map fun p => (p.1, createNestedGroups p.2 ks)).any
        fun p => p.1 = s) = l.any fun p => p.1 = s :=
  any_key_map_pair l (fun b => createNestedGroups b ks) s

theorem mapGet_map_arrObj (l : List (String × List Rec)) (s : String) :
    mapGet (l.map fun p => (p.1, JsValue.arr (p.2.map JsValue.obj))) s =
      (mapGet l s).map fun b => JsValue.arr (b.map JsValue.obj) :=
  mapGet_map_pair l (fun b => JsValue.arr (b.map JsValue.obj)) s

theorem mapGet_objEntries_nested (G : List (String × List Rec))
    (hnd : (G.map Prod.fst).Nodup) (ks : List String) (s : String) :
    mapGet ((objEntries G).map fun p => (p.1, createNestedGroups p.2 ks)) s =
      (mapGet G s).map fun b => createNestedGroups b ks := by
  have h := mapGet_map_pair (objEntries G)
    (fun b => createNestedGroups b ks) s
  rw [h]
  have hperm := objEntries_perm G
  have hnd2 : ((objEntries G).map Prod.fst).Nodup :=
    ((hperm.map Prod.fst).nodup_iff).mpr hnd
  rw [mapGet_congr_perm _ _ hperm hnd2 s]

theorem ngLookup_createNestedGroups (keys : List String) :
    ∀ (items : List Rec) (path : List JsValue),
      path.length ≤ keys.length →
      getFromNestedGroups (createNestedGroups items keys) path =
        ngLookupSpec items keys path := by
  induction keys with
  | nil =>
    intro items path hle
    have hp : path = [] := List.length_eq_zero.mp (Nat.le_zero.mp (by simpa using hle))
    subst hp
    simp only [createNestedGroups, getFromNestedGroups, List.isEmpty_nil,
      if_true, ngLookupSpec, List.length_nil, if_pos rfl, hasNullish,
      List.any_nil, keyStrTuple, List.map_nil]
    rw [if_neg (by simp)]
    simp
  | cons k rest ih =>
    intro items path hle
    cases rest with
    | nil =>
      cases path with
      | nil =>
        simp [createNestedGroups, getFromNestedGroups, ngLookupSpec]
      | cons v ps =>
        have hps : ps = [] := by
          rcases ps with _ | ⟨a, ps⟩
          · rfl
          · exfalso
            simp only [List.length_cons, List.length_nil] at hle
            omega
        subst hps
        rw [getFromNestedGroups_eq_ngWalk]
        simp only [createNestedGroups, ngWalk]
        by_cases hv : isNullish v = true
        · rw [ngHasKey_obj_nullish _ _ hv]
          simp only [Bool.false_eq_true, if_false, ngLookupSpec,
            List.length_cons, List.length_nil]
          rw [if_pos trivial, if_pos (by simpa [hasNullish] using hv)]
        · have hv' : isNullish v = false := Bool.eq_false_iff.mpr hv
          have hvn : ¬ v = JsValue.null := by
            intro h
            rw [h] at hv'
            simp [isNullish] at hv'
          have hvu : ¬ v = JsValue.undefined := by
            intro h
            rw [h] at hv'
            simp [isNullish] at hv'
          rw [ngHasKey_obj _ _ hvn hvu, any_key_map_arrObj]
          cases hG : mapGet (indexMany items fun r => jsToString (getField r k))
              (jsToString v) with
          | none =>
            have hany : ((indexMany items fun r => jsToString (getField r k)).any
                fun p => p.1 = jsToString v) = false := (mapGet_eq_none_iff _ _).mp hG
            rw [hany]
            have hnone := (mapGet_indexMany_none_iff items _ (jsToString v)).mp hG
            simp only [Bool.false_eq_true, if_false, ngLookupSpec,
              List.length_cons, List.length_nil]
            rw [if_pos trivial, if_neg (by simpa [hasNullish] using hv)]
            rw [List.filter_eq_nil_iff.mpr, List.map_nil]
            intro r hr
            simp only [keyStrTuple, List.map_cons, List.map_nil,
              decide_eq_true_eq, List.cons.injEq, and_true]
            intro hs
            exact (hnone r hr) hs
          | some bucket =>
            have hany : ((indexMany items fun r => jsToString (getField r k)).any
                fun p => p.1 = jsToString v) = true := by
              by_contra hc
              rw [(mapGet_eq_none_iff _ _).mpr (Bool.eq_false_iff.mpr hc)] at hG
              cases hG
            rw [hany, if_pos rfl, ngIndex_obj, mapGet_map_arrObj, hG]
            simp only [Option.map_some', Option.getD_some, ngWalk]
            have hbucket : bucket = items.filter
                fun r => decide (jsToString (getField r k) = jsToString v) := by
              have hgd := mapGetD_indexMany items
                (fun r => jsToString (getField r k)) (jsToString v)
              rw [hG] at hgd
              simpa using hgd
            rw [hbucket, ngLookupSpec]
            rw [if_pos (by simp), if_neg (by simpa [hasNullish] using hv)]
            apply congrArg
            apply List.filter_congr
            intro r _
            simp [keyStrTuple]
    | cons k2 rest2 =>
      cases path with
      | nil =>
        simp only [getFromNestedGroups, List.isEmpty_nil, if_true,
          createNestedGroups, ngLookupSpec, List.length_nil, List.length_cons]
        rw [if_neg (by simp)]
      | cons v ps =>
        have hle' : ps.length ≤ (k2 :: rest2).length := by
          simpa using Nat.le_of_succ_le_succ (by simpa using hle)
        rw [getFromNestedGroups_eq_ngWalk]
        simp only [createNestedGroups, ngWalk]
        by_cases hv : isNullish v = true
        · rw [ngHasKey_obj_nullish _ _ hv]
          simp only [Bool.false_eq_true, if_false, ngLookupSpec]
          by_cases hlen : (v :: ps).length = (k :: k2 :: rest2).length
          · rw [if_pos hlen, if_pos (by simp [hasNullish, hv])]
          · rw [if_neg hlen]
        · have hv' : isNullish v = false := Bool.eq_false_iff.mpr hv
          have hvn : ¬ v = JsValue.null := by
            intro h
            rw [h] at hv'
            simp [isNullish] at hv'
          have hvu : ¬ v = JsValue.undefined := by
            intro h
            rw [h] at hv'
            simp [isNullish] at hv'
          have hnd := nodup_keys_groupFold items fun r => jsToString (getField r k)
          rw [ngHasKey_obj _ _ hvn hvu, any_key_map_nested,
            any_of_perm _ (objEntries_perm _)]
          cases hG : mapGet (indexMany items fun r => jsToString (getField r k))
              (jsToString v) with
          | none =>
            have hany : ((indexMany items fun r => jsToString (getField r k)).any
                fun p => p.1 = jsToString v) = false := (mapGet_eq_none_iff _ _).mp hG
            rw [hany]
            have hnone := (mapGet_indexMany_none_iff items _ (jsToString v)).mp hG
            simp only [Bool.false_eq_true, if_false, ngLookupSpec]
            by_cases hlen : (v :: ps).length = (k :: k2 :: rest2).length
            · rw [if_pos hlen]
              by_cases hnul : hasNullish (v :: ps) = true
              · rw [if_pos hnul]
              · rw [if_neg hnul]
                rw [List.filter_eq_nil_iff.mpr, List.map_nil]
                intro r hr
                simp only [keyStrTuple, List.map_cons, decide_eq_true_eq,
                  List.cons.injEq, not_and]
                intro hs _
                exact (hnone r hr) hs
            · rw [if_neg hlen]
          | some bucket =>
            have hany : ((indexMany items fun r => jsToString (getField r k)).any
                fun p => p.1 = jsToString v) = true := by
              by_contra hc
              rw [(mapGet_eq_none_iff _ _).mpr (Bool.eq_false_iff.mpr hc)] at hG
              cases hG
            rw [hany, if_pos rfl, ngIndex_obj,
              mapGet_objEntries_nested _ hnd _ (jsToString v), hG]
            simp only [Option.map_some', Option.getD_some]
            rw [← getFromNestedGroups_eq_ngWalk, ih bucket ps hle']
            have hbucket : bucket = items.filter
                fun r => decide (jsToString (getField r k) = jsToString v) := by
              have hgd := mapGetD_indexMany items
                (fun r => jsToString (getField r k)) (jsToString v)
              rw [hG] at hgd
              simpa using hgd
            rw [hbucket]
            unfold ngLookupSpec
            by_cases hlen : ps.length = (k2 :: rest2).length
            · rw [if_pos hlen,
                if_pos (show (v :: ps).length = (k :: k2 :: rest2).length by
                  simp [hlen])]
              by_cases hnul : hasNullish ps = true
              · rw [if_pos hnul,
                  if_pos (show hasNullish (v :: ps) = true by
                    simp [hasNullish] at hnul ⊢
                    exact Or.inr hnul)]
              · rw [if_neg hnul,
                  if_neg (show ¬ hasNullish (v :: ps) = true by
                    simp [hasNullish, hv'] at hnul ⊢
                    exact hnul)]
                rw [List.filter_filter]
                apply congrArg
                apply List.filter_congr
                intro r _
                simp [keyStrTuple, List.cons.injEq, Bool.and_comm, and_comm]
            · rw [if_neg hlen, if_neg (by simpa using hlen)]


/-! ### Record enrichment lemmas -/

theorem setField_eq_mapSet (r : Rec) (k : String) (v : JsValue) :
    setField r k v = mapSet r k v := rfl

theorem getField_eq_mapGet (r : Rec) (f : String) :
    getField r f = (mapGet r f).getD .undefined := rfl

/-- Reading the freshly added field gives the attached value. -/
theorem getField_setField_self (r : Rec) (k : String) (v : JsValue) :
    getField (setField r k v) k = v := by
  rw [getField_eq_mapGet, setField_eq_mapSet, mapGet_mapSet, if_pos rfl]
  rfl

/-- All other fields of an enriched record read as in the original. -/
theorem getField_setField_ne (r : Rec) (k : String) (v : JsValue)
    (f : String) (h : ¬ f = k) :
    getField (setField r k v) f = getField r f := by
  rw [getField_eq_mapGet, setField_eq_mapSet, mapGet_mapSet, if_neg h,
    getField_eq_mapGet]

/-- Enriching with a fresh field name appends exactly one field. -/
theorem keys_setField_absent (r : Rec) (k : String) (v : JsValue)
    (h : (r.any fun p => p.1 = k) = false) :
    (setField r k v).map Prod.fst = r.map Prod.fst ++ [k] := by
  rw [setField_eq_mapSet]
  exact keys_mapSet_absent r k v (by rw [h]; exact Bool.false_ne_true)

/-! ### Composite-key serialization lemmas -/

/-- A key value that is a string not containing the pipe character
(hence free of the full separator and not null/undefined). -/
def pipeFreeStr : JsValue → Bool
  | .str s => s.data.all fun c => ¬ c = '|'
  | _ => false

theorem chars_split_at_pipe :
    ∀ (a b r₁ r₂ : List Char), (∀ c ∈ a, ¬ c = '|') → (∀ c ∈ b, ¬ c = '|') →
      a ++ '|' :: r₁ = b ++ '|' :: r₂ → a = b ∧ r₁ = r₂ := by
  intro a
  induction a with
  | nil =>
    intro b r₁ r₂ _ hb heq
    cases b with
    | nil => simpa using heq
    | cons c bs =>
      simp only [List.nil_append, List.cons_append, List.cons.injEq] at heq
      exact absurd heq.1.symm (hb c (List.mem_cons_self c bs))
  | cons x xs ih =>
    intro b r₁ r₂ ha hb heq
    cases b with
    | nil =>
      simp only [List.nil_append, List.cons_append, List.cons.injEq] at heq
      exact absurd heq.1 (ha x (List.mem_cons_self x xs))
    | cons y bs =>
      simp only [List.cons_append, List.cons.injEq] at heq
      rcases heq with ⟨hxy, htl⟩
      subst hxy
      rcases ih bs r₁ r₂ (fun c hc => ha c (List.mem_cons_of_mem _ hc))
        (fun c hc => hb c (List.mem_cons_of_mem _ hc)) htl with ⟨h1, h2⟩
      exact ⟨by rw [h1], h2⟩

/-- Joining pipe-free components with the separator is injective on
tuples of equal arity. -/
theorem joinWithSep_inj :
    ∀ (xs ys : List String), xs.length = ys.length →
      (∀ s ∈ xs, (s.data.all fun c => ¬ c = '|') = true) →
      (∀ s ∈ ys, (s.data.all fun c => ¬ c = '|') = true) →
      joinWithSep xs = joinWithSep ys → xs = ys
  | [], [], _, _, _, _ => rfl
  | [], _ :: _, hlen, _, _, _ => by simp at hlen
  | _ :: _, [], hlen, _, _, _ => by simp at hlen
  | [x], [y], _, _, _, heq => by
    simpa [joinWithSep] using heq
  | [_], _ :: _ :: _, hlen, _, _, _ => by simp at hlen
  | _ :: _ :: _, [_], hlen, _, _, _ => by simp at hlen
  | x :: x2 :: xr, y :: y2 :: yr, hlen, hx, hy, heq => by
    have hdata := congrArg String.data heq
    simp only [joinWithSep, String.data_append] at hdata
    rw [List.append_assoc, List.append_assoc] at hdata
    have hsep : ("||~~||".data) ++ (joinWithSep (x2 :: xr)).data =
        '|' :: '|' :: '~' :: '~' :: '|' :: '|' :: (joinWithSep (x2 :: xr)).data := rfl
    have hsep' : ("||~~||".data) ++ (joinWithSep (y2 :: yr)).data =
        '|' :: '|' :: '~' :: '~' :: '|' :: '|' :: (joinWithSep (y2 :: yr)).data := rfl
    rw [hsep, hsep'] at hdata
    have hxpf : ∀ c ∈ x.data, ¬ c = '|' := by
      have := hx x (List.mem_cons_self _ _)
      intro c hc
      exact of_decide_eq_true (List.all_eq_true.mp this c hc)
    have hypf : ∀ c ∈ y.data, ¬ c = '|' := by
      have := hy y (List.mem_cons_self _ _)
      intro c hc
      exact of_decide_eq_true (List.all_eq_true.mp this c hc)
    rcases chars_split_at_pipe x.data y.data _ _ hxpf hypf hdata with ⟨h1, h2⟩
    have hxy : x = y := String.ext h1
    simp only [List.cons.injEq] at h2
    have hjoin : joinWithSep (x2 :: xr) = joinWithSep (y2 :: yr) :=
      String.ext h2.2.2.2.2.2
    have hrest : (x2 :: xr) = (y2 :: yr) := by
      apply joinWithSep_inj (x2 :: xr) (y2 :: yr)
      · simpa using hlen
      · intro s hs
        exact hx s (List.mem_cons_of_mem _ hs)
      · intro s hs
        exact hy s (List.mem_cons_of_mem _ hs)
      · exact hjoin
    rw [hxy, hrest]

/-- For string-valued keys the composite key is the separator-join of
the stringified key tuple. -/
theorem getCompositeKey_eq_join (r : Rec) (ks : List String)
    (h : ∀ k ∈ ks, pipeFreeStr (getField r k) = true) :
    getCompositeKey r ks = joinWithSep (keyStrTuple r ks) := by
  unfold getCompositeKey createCompositeKey keyStrTuple
  rw [List.map_map]
  apply congrArg
  apply List.map_congr_left
  intro k hk
  have hpf := h k hk
  simp only [Function.comp_apply]
  cases hv : getField r k with
  | str s => rfl
  | num n => rfl
  | arr es => rfl
  | obj fs => rfl
  | null => rw [hv] at hpf; simp [pipeFreeStr] at hpf
  | undefined => rw [hv] at hpf; simp [pipeFreeStr] at hpf

theorem keyStrTuple_pipeFree (r : Rec) (ks : List String)
    (h : ∀ k ∈ ks, pipeFreeStr (getField r k) = true) :
    ∀ s ∈ keyStrTuple r ks, (s.data.all fun c => ¬ c = '|') = true := by
  intro s hs
  rcases List.mem_map.mp hs with ⟨k, hk, hks⟩
  have := h k hk
  cases hv : getField r k with
  | str t =>
    rw [hv] at this hks
    simp only [pipeFreeStr] at this
    rw [← hks]
    simpa [jsToString] using this
  | num n => rw [hv] at this; simp [pipeFreeStr] at this
  | null => rw [hv] at this; simp [pipeFreeStr] at this
  | undefined => rw [hv] at this; simp [pipeFreeStr] at this
  | arr es => rw [hv] at this; simp [pipeFreeStr] at this
  | obj fs => rw [hv] at this; simp [pipeFreeStr] at this

theorem not_nullish_of_pipeFree (v : JsValue) (h : pipeFreeStr v = true) :
    isNullish v = false := by
  cases v <;> simp [pipeFreeStr, isNullish] at h ⊢

/-- `find?` returns the head of the filtered list. -/
theorem find?_eq_head?_filter {α : Type} (p : α → Bool) (l : List α) :
    l.find? p = (l.filter p).head? := by
  induction l with
  | nil => rfl
  | cons a l ih =>
    by_cases h : p a = true
    · rw [List.find?_cons_of_pos _ h, List.filter_cons_of_pos h]
      rfl
    · rw [List.find?_cons_of_neg _ (by simpa using h),
        List.filter_cons_of_neg (by simpa using h)]
      exact ih

/-! ### Closed-form equations for the join operators -/

theorem attachChildren_eq (ps cs : List Rec) (pk ck as : String) :
    attachChildren ps cs pk ck as = ps.map fun p =>
      setField p as (.arr ((cs.filter fun c =>
        decide (getField c ck = getField p pk)).map .obj)) := by
  unfold attachChildren
  apply List.map_congr_left
  intro p _
  rw [mapGetD_indexMany]

theorem attachChild_eq (ps cs : List Rec) (pk ck as : String) :
    attachChild ps cs pk ck as = ps.map fun p =>
      setField p as (((cs.find? fun c =>
        decide (getField c ck = getField p pk)).map .obj).getD .null) := by
  unfold attachChild
  apply List.map_congr_left
  intro p _
  rw [mapGet_indexFirst]

theorem joinBySelectors_many_eq (ps cs : List Rec)
    (psel csel : Rec → JsValue) (as : String) :
    joinBySelectors ps cs psel csel as .many = ps.map fun p =>
      setField p as (.arr ((cs.filter fun c =>
        decide (csel c = psel p)).map .obj)) := by
  unfold joinBySelectors
  apply List.map_congr_left
  intro p _
  rw [mapGetD_indexMany]

theorem joinBySelectors_one_eq (ps cs : List Rec)
    (psel csel : Rec → JsValue) (as : String) :
    joinBySelectors ps cs psel csel as .one = ps.map fun p =>
      setField p as (((cs.find? fun c =>
        decide (csel c = psel p)).map .obj).getD .null) := by
  unfold joinBySelectors
  apply List.map_congr_left
  intro p _
  rw [mapGet_indexFirst]

theorem attachChildrenComposite_eq (ps cs : List Rec)
    (pks cks : List String) (as : String) :
    attachChildrenComposite ps cs pks cks as = ps.map fun p =>
      setField p as (.arr ((cs.filter fun c =>
        decide (getCompositeKey c cks = getCompositeKey p pks)).map .obj)) := by
  unfold attachChildrenComposite
  apply List.map_congr_left
  intro p _
  rw [mapGetD_indexMany]

theorem attachChildComposite_eq (ps cs : List Rec)
    (pks cks : List String) (as : String) :
    attachChildComposite ps cs pks cks as = ps.map fun p =>
      setField p as (((cs.find? fun c =>
        decide (getCompositeKey c cks = getCompositeKey p pks)).map .obj).getD .null) := by
  unfold attachChildComposite
  apply List.map_congr_left
  intro p _
  rw [mapGet_indexFirst]

theorem attachChildrenNested_eq (ps cs : List Rec)
    (pks cks : List String) (as : String)
    (hlen : pks.length = cks.length) :
    attachChildrenNested ps cs pks cks as = ps.map fun p =>
      setField p as (.arr (ngLookupSpec cs cks (pks.map fun k => getField p k))) := by
  unfold attachChildrenNested
  apply List.map_congr_left
  intro p _
  dsimp only
  rw [ngLookup_createNestedGroups cks cs (pks.map fun k => getField p k)
    (by simpa using Nat.le_of_eq hlen)]

theorem attachChildNested_eq (ps cs : List Rec)
    (pks cks : List String) (as : String)
    (hlen : pks.length = cks.length) :
    attachChildNested ps cs pks cks as = ps.map fun p =>
      setField p as ((ngLookupSpec cs cks (pks.map fun k => getField p k)).head?.getD .null) := by
  unfold attachChildNested
  apply List.map_congr_left
  intro p _
  dsimp only
  rw [ngLookup_createNestedGroups cks cs (pks.map fun k => getField p k)
    (by simpa using Nat.le_of_eq hlen)]

theorem attachChildrenWithFilter_eq (ps ms cs : List Rec)
    (pk cpk mk ck mAs cAs : String) (mCard cCard : Cardinality) :
    attachChildrenWithFilter ps ms cs pk cpk mk ck mAs cAs mCard cCard =
      ps.map fun parent =>
        setField parent mAs (resolveCard mCard ((ms.map fun mid =>
          setField mid cAs (resolveCard cCard ((cs.filter fun c =>
            decide (getField c ck = getField mid mk) &&
            decide (getField c cpk = getField parent pk)).map .obj))).map .obj)) := by
  unfold attachChildrenWithFilter
  apply List.map_congr_left
  intro parent _
  dsimp only
  apply congrArg
  apply congrArg
  apply congrArg
  apply List.map_congr_left
  intro mid _
  apply congrArg
  apply congrArg
  apply congrArg
  rw [mapGetD_indexMany, List.filter_filter]
  apply List.filter_congr
  intro c _
  rw [Bool.and_comm]

/-! ## Claim theorems -/

/-- C2: every join operator returns one enriched record per input
parent, in the same order — the output is exactly the map of the parent
sequence through an enrichment that adds the caller-named field, so the
output length equals the parent count and every parent appears exactly
once regardless of its match count. -/
theorem claim_C2 :
    (∀ (ps cs : List Rec) (pk ck as : String),
      (attachChildren ps cs pk ck as).length = ps.length ∧
      ∃ f : Rec → JsValue, attachChildren ps cs pk ck as = ps.map fun p => setField p as (f p))
  ∧ (∀ (ps cs : List Rec) (pk ck as : String),
      (attachChild ps cs pk ck as).length = ps.length ∧
      ∃ f : Rec → JsValue, attachChild ps cs pk ck as = ps.map fun p => setField p as (f p))
  ∧ (∀ (ps cs : List Rec) (psel csel : Rec → JsValue) (as : String)
        (mode : Cardinality),
      (joinBySelectors ps cs psel csel as mode).length = ps.length ∧
      ∃ f : Rec → JsValue, joinBySelectors ps cs psel csel as mode
        = ps.map fun p => setField p as (f p))
  ∧ (∀ (ps cs : List Rec) (pks cks : List String) (as : String),
      (attachChildrenComposite ps cs pks cks as).length = ps.length ∧
      ∃ f : Rec → JsValue, attachChildrenComposite ps cs pks cks as
        = ps.map fun p => setField p as (f p))
  ∧ (∀ (ps cs : List Rec) (pks cks : List String) (as : String),
      (attachChildComposite ps cs pks cks as).length = ps.length ∧
      ∃ f : Rec → JsValue, attachChildComposite ps cs pks cks as
        = ps.map fun p => setField p as (f p))
  ∧ (∀ (ps cs : List Rec) (pks cks : List String) (as : String),
      (attachChildrenNested ps cs pks cks as).length = ps.length ∧
      ∃ f : Rec → JsValue, attachChildrenNested ps cs pks cks as
        = ps.map fun p => setField p as (f p))
  ∧ (∀ (ps cs : List Rec) (pks cks : List String) (as : String),
      (attachChildNested ps cs pks cks as).length = ps.length ∧
      ∃ f : Rec → JsValue, attachChildNested ps cs pks cks as
        = ps.map fun p => setField p as (f p))
  ∧ (∀ (ps ms cs : List Rec) (pk cpk mk ck mAs cAs : String)
        (mCard cCard : Cardinality),
      (attachChildrenWithFilter ps ms cs pk cpk mk ck mAs cAs mCard cCard).length
        = ps.length ∧
      ∃ f : Rec → JsValue, attachChildrenWithFilter ps ms cs pk cpk mk ck mAs cAs mCard cCard
        = ps.map fun p => setField p mAs (f p)) := by
  refine ⟨?_, ?_, ?_, ?_, ?_, ?_, ?_, ?_⟩
  · intro ps cs pk ck as
    exact ⟨by simp [attachChildren], ⟨_, rfl⟩⟩
  · intro ps cs pk ck as
    exact ⟨by simp [attachChild], ⟨_, rfl⟩⟩
  · intro ps cs psel csel as mode
    cases mode with
    | one => exact ⟨by simp [joinBySelectors], ⟨_, rfl⟩⟩
    | many => exact ⟨by simp [joinBySelectors], ⟨_, rfl⟩⟩
  · intro ps cs pks cks as
    exact ⟨by simp [attachChildrenComposite], ⟨_, rfl⟩⟩
  · intro ps cs pks cks as
    exact ⟨by simp [attachChildComposite], ⟨_, rfl⟩⟩
  · intro ps cs pks cks as
    exact ⟨by simp [attachChildrenNested], ⟨_, rfl⟩⟩
  · intro ps cs pks cks as
    exact ⟨by simp [attachChildNested], ⟨_, rfl⟩⟩
  · intro ps ms cs pk cpk mk ck mAs cAs mCard cCard
    exact ⟨by simp [attachChildrenWithFilter], ⟨_, rfl⟩⟩

/-- C3: in the three-level join every parent receives the full middle
catalog in input order; each enriched middle record carries, under the
child output field, exactly the children matching both the middle key
and the parent's ownership key, in child input order; cardinality "many"
attaches the (possibly empty) filtered sequence and "one" its first
element or the absence marker. -/
theorem claim_C3 (ps ms cs : List Rec) (pk cpk mk ck mAs cAs : String)
    (mCard cCard : Cardinality) :
    attachChildrenWithFilter ps ms cs pk cpk mk ck mAs cAs mCard cCard =
      ps.map fun parent =>
        setField parent mAs (resolveCard mCard ((ms.map fun mid =>
          setField mid cAs (resolveCard cCard ((cs.filter fun c =>
            decide (getField c ck = getField mid mk) &&
            decide (getField c cpk = getField parent pk)).map .obj))).map .obj)) :=
  attachChildrenWithFilter_eq ps ms cs pk cpk mk ck mAs cAs mCard cCard

/-- C7: multi-key grouping and the nested index agree — `groupByMany`
builds exactly the tree `createNestedGroups` builds, so navigating
either (with `getFromNestedGroups`) yields the same sequences, and with
zero keys both return the raw input sequence unchanged. -/
theorem claim_C7 (items : List Rec) (keys : List String) :
    createNestedGroups items keys = groupByMany items keys
  ∧ (∀ path, getFromNestedGroups (groupByMany items keys) path
      = getFromNestedGroups (createNestedGroups items keys) path)
  ∧ groupByMany items ([] : List String) = .arr (items.map .obj)
  ∧ getFromNestedGroups (groupByMany items ([] : List String)) [] = items.map .obj := by
  have htree : ∀ (keys : List String) (items : List Rec),
      createNestedGroups items keys = groupByMany items keys := by
    intro keys
    induction keys with
    | nil =>
      intro items
      simp [createNestedGroups, groupByMany]
    | cons k rest ih =>
      intro items
      cases rest with
      | nil => simp [createNestedGroups, groupByMany, groupByKey]
      | cons k2 rest2 =>
        simp only [createNestedGroups, groupByMany, groupByKey]
        apply congrArg
        apply List.map_congr_left
        intro p _
        rw [ih p.2]
  refine ⟨htree keys items, fun path => by rw [htree keys items], ?_, ?_⟩
  · simp [groupByMany]
  · simp [groupByMany, getFromNestedGroups]

/-- C10: the flat single-key joins — attachChildren, attachChild, both
modes of joinBySelectors, and the middle-key index of the three-level
join — match keys by value equality with no type coercion (the number 1
never matches the string "1"), while the serialized composite-key
strategy stringifies key components and renders null/undefined as the
empty string, so there 1 matches "1" and null, undefined and "" are
indistinguishable key components. -/
theorem claim_C10 :
    (∀ (ps cs : List Rec) (pk ck as : String),
      attachChildren ps cs pk ck as = ps.map fun p =>
        setField p as (.arr ((cs.filter fun c =>
          decide (getField c ck = getField p pk)).map .obj)))
  ∧ (∀ (ps cs : List Rec) (pk ck as : String),
      attachChild ps cs pk ck as = ps.map fun p =>
        setField p as (((cs.find? fun c =>
          decide (getField c ck = getField p pk)).map .obj).getD .null))
  ∧ (∀ (ps cs : List Rec) (psel csel : Rec → JsValue) (as : String),
      joinBySelectors ps cs psel csel as .many = ps.map fun p =>
        setField p as (.arr ((cs.filter fun c =>
          decide (csel c = psel p)).map .obj)))
  ∧ (∀ (ps cs : List Rec) (psel csel : Rec → JsValue) (as : String),
      joinBySelectors ps cs psel csel as .one = ps.map fun p =>
        setField p as (((cs.find? fun c =>
          decide (csel c = psel p)).map .obj).getD .null))
  ∧ attachChildren [[("k", JsValue.num 1)]] [[("k", JsValue.str "1")]] "k" "k" "c"
      = [[("k", JsValue.num 1), ("c", JsValue.arr [])]]
  ∧ joinBySelectors [[("k", JsValue.num 1)]] [[("k", JsValue.str "1")]]
      (fun p => getField p "k") (fun c => getField c "k") "c" .many
      = [[("k", JsValue.num 1), ("c", JsValue.arr [])]]
  ∧ joinBySelectors [[("k", JsValue.num 1)]] [[("k", JsValue.str "1")]]
      (fun p => getField p "k") (fun c => getField c "k") "c" .one
      = [[("k", JsValue.num 1), ("c", JsValue.null)]]
  ∧ attachChildrenWithFilter [[("id", JsValue.num 7)]] [[("m", JsValue.num 1)]]
      [[("f", JsValue.str "1"), ("o", JsValue.num 7)]] "id" "o" "m" "f" "ms" "cs"
      .many .many
      = [[("id", JsValue.num 7),
          ("ms", JsValue.arr [JsValue.obj [("m", JsValue.num 1), ("cs", JsValue.arr [])]])]]
  ∧ createCompositeKey [JsValue.num 1] = createCompositeKey [JsValue.str "1"]
  ∧ createCompositeKey [JsValue.null] = ""
  ∧ createCompositeKey [JsValue.undefined] = ""
  ∧ createCompositeKey [JsValue.str ""] = ""
  ∧ attachChildrenComposite [[("k", JsValue.num 1)]] [[("k", JsValue.str "1")]]
      ["k"] ["k"] "c"
      = [[("k", JsValue.num 1), ("c", JsValue.arr [JsValue.obj [("k", JsValue.str "1")]])]]
  ∧ attachChildrenComposite [[("k", JsValue.null)]] [[("k", JsValue.undefined)]]
      ["k"] ["k"] "c"
      = [[("k", JsValue.null), ("c", JsValue.arr [JsValue.obj [("k", JsValue.undefined)]])]] := by
  refine ⟨attachChildren_eq, attachChild_eq, joinBySelectors_many_eq,
    joinBySelectors_one_eq, ?_, ?_, ?_, ?_, ?_, ?_, ?_, ?_, ?_, ?_⟩ <;> decide

/-- C8 (counterexample): a lookup path longer than the tree depth does
not return empty — the walk escapes into a leaf record's array-valued
field and returns it. -/
theorem claim_C8_counterexample :
    getFromNestedGroups (createNestedGroups
        [[("a", JsValue.num 1), ("f", JsValue.arr [JsValue.num 5])]] ["a"])
      [JsValue.num 1, JsValue.num 0, JsValue.str "f"] = [JsValue.num 5]
  ∧ decide (getFromNestedGroups (createNestedGroups
        [[("a", JsValue.num 1), ("f", JsValue.arr [JsValue.num 5])]] ["a"])
      [JsValue.num 1, JsValue.num 0, JsValue.str "f"] = ([] : List JsValue))
      = false := by
  constructor
  · decide
  · decide

/-- C8 (amended): the lookup is total and never throws; for a path no
longer than the tree's key count it returns the matching bucket when the
lengths agree (empty when any level is missing or a component is
null/undefined) and empty when the path is shorter; the zero-length path
returns the tree itself when it is a flat sequence and empty otherwise.
Paths longer than the depth are excluded: they can walk into leaf
records (see the counterexample). -/
theorem claim_C8_amended :
    (∀ (items : List Rec) (keys : List String) (path : List JsValue),
      path.length ≤ keys.length →
      getFromNestedGroups (createNestedGroups items keys) path
        = ngLookupSpec items keys path)
  ∧ (∀ (items : List Rec) (keys : List String) (path : List JsValue),
      path.length < keys.length → ngLookupSpec items keys path = [])
  ∧ (∀ t : JsValue, getFromNestedGroups t []
      = match t with | .arr es => es | _ => []) := by
  refine ⟨fun items keys path h => ngLookup_createNestedGroups keys items path h,
    ?_, ?_⟩
  · intro items keys path h
    unfold ngLookupSpec
    rw [if_neg (Nat.ne_of_lt h)]
  · intro t
    cases t <;> rfl

/-- C4: the one-to-one joins attach the first child (in child input
order) whose key matches under the operator's key semantics, and attach
the explicit `null` absence marker — with the field present — when
nothing matches.  For the nested variant, matching is by stringified key
path; per the spec's configuration contract the parent and child key
tuples have equal arity, and a parent path containing null/undefined
matches nothing. -/
theorem claim_C4 :
    (∀ (ps cs : List Rec) (pk ck as : String),
      attachChild ps cs pk ck as = ps.map fun p =>
        setField p as (((cs.find? fun c =>
          decide (getField c ck = getField p pk)).map .obj).getD .null))
  ∧ (∀ (ps cs : List Rec) (pks cks : List String) (as : String),
      attachChildComposite ps cs pks cks as = ps.map fun p =>
        setField p as (((cs.find? fun c =>
          decide (getCompositeKey c cks = getCompositeKey p pks)).map .obj).getD .null))
  ∧ (∀ (ps cs : List Rec) (pks cks : List String) (as : String),
      pks.length = cks.length →
      attachChildNested ps cs pks cks as = ps.map fun p =>
        setField p as
          (if hasNullish (pks.map fun k => getField p k) = true then .null
           else ((cs.find? fun c =>
             decide (keyStrTuple c cks = keyStrTuple p pks)).map .obj).getD .null)) := by
  refine ⟨attachChild_eq, attachChildComposite_eq, ?_⟩
  intro ps cs pks cks as hlen
  rw [attachChildNested_eq ps cs pks cks as hlen]
  apply List.map_congr_left
  intro p _
  apply congrArg
  unfold ngLookupSpec
  rw [if_pos (by simpa using hlen)]
  by_cases hnul : hasNullish (pks.map fun k => getField p k) = true
  · rw [if_pos hnul, if_pos hnul]
    rfl
  · rw [if_neg hnul, if_neg hnul]
    rw [List.head?_map, find?_eq_head?_filter]
    have hpath : (pks.map fun k => getField p k).map jsToString
        = keyStrTuple p pks := by
      rw [List.map_map]
      rfl
    rw [hpath]

/-- C4 witness: the spec's one-to-one nested scenario, with the arity
hypothesis discharged at a concrete input. -/
theorem claim_C4_witness :
    attachChildNested [[("sku", JsValue.str "A"), ("origin", JsValue.str "US")]]
        [[("sku", JsValue.str "A"), ("origin", JsValue.str "US"), ("amount", JsValue.num 99)]]
        ["sku", "origin"] ["sku", "origin"] "price"
      = [[("sku", JsValue.str "A"), ("origin", JsValue.str "US")]].map fun p =>
          setField p "price"
            (if hasNullish (["sku", "origin"].map fun k => getField p k) = true
             then .null
             else ((([[("sku", JsValue.str "A"), ("origin", JsValue.str "US"),
                 ("amount", JsValue.num 99)]] : List Rec).find? fun c =>
               decide (keyStrTuple c ["sku", "origin"]
                 = keyStrTuple p ["sku", "origin"])).map .obj).getD .null) :=
  claim_C4.2.2 [[("sku", JsValue.str "A"), ("origin", JsValue.str "US")]]
    [[("sku", JsValue.str "A"), ("origin", JsValue.str "US"), ("amount", JsValue.num 99)]]
    ["sku", "origin"] ["sku", "origin"] "price" (by decide)

/-- C5: for identical inputs, the one-to-one join attaches per parent
exactly the first element of what the one-to-many join attaches (the
`null` absence marker when that sequence is empty), both for the fixed
key-field joins and for both modes of `joinBySelectors`. -/
theorem claim_C5 :
    (∀ (ps cs : List Rec) (pk ck as : String) (i : Nat), i < ps.length →
      ∃ (p : Rec) (l : List JsValue),
        ps[i]? = some p ∧
        (attachChildren ps cs pk ck as)[i]? = some (setField p as (.arr l)) ∧
        (attachChild ps cs pk ck as)[i]? =
          some (setField p as (l.head?.getD .null)))
  ∧ (∀ (ps cs : List Rec) (psel csel : Rec → JsValue) (as : String) (i : Nat),
      i < ps.length →
      ∃ (p : Rec) (l : List JsValue),
        ps[i]? = some p ∧
        (joinBySelectors ps cs psel csel as .many)[i]? = some (setField p as (.arr l)) ∧
        (joinBySelectors ps cs psel csel as .one)[i]? =
          some (setField p as (l.head?.getD .null))) := by
  constructor
  · intro ps cs pk ck as i hi
    refine ⟨ps[i], (cs.filter fun c =>
      decide (getField c ck = getField ps[i] pk)).map .obj,
      List.getElem?_eq_getElem hi, ?_, ?_⟩
    · rw [attachChildren_eq, List.getElem?_map, List.getElem?_eq_getElem hi]
      rfl
    · rw [attachChild_eq, List.getElem?_map, List.getElem?_eq_getElem hi]
      simp only [Option.map_some']
      rw [find?_eq_head?_filter, List.head?_map]
  · intro ps cs psel csel as i hi
    refine ⟨ps[i], (cs.filter fun c => decide (csel c = psel ps[i])).map .obj,
      List.getElem?_eq_getElem hi, ?_, ?_⟩
    · rw [joinBySelectors_many_eq, List.getElem?_map, List.getElem?_eq_getElem hi]
      rfl
    · rw [joinBySelectors_one_eq, List.getElem?_map, List.getElem?_eq_getElem hi]
      simp only [Option.map_some']
      rw [find?_eq_head?_filter, List.head?_map]

/-- C5 witness: the duality instantiated at the spec's flat one-to-many
scenario, index 0. -/
theorem claim_C5_witness :
    ∃ (p : Rec) (l : List JsValue),
      ([[("id", JsValue.num 1)], [("id", JsValue.num 2)]] : List Rec)[0]? = some p ∧
      (attachChildren [[("id", JsValue.num 1)], [("id", JsValue.num 2)]]
        [[("id", JsValue.num 101), ("userId", JsValue.num 1)],
         [("id", JsValue.num 102), ("userId", JsValue.num 1)],
         [("id", JsValue.num 103), ("userId", JsValue.num 2)]]
        "id" "userId" "orders")[0]? = some (setField p "orders" (.arr l)) ∧
      (attachChild [[("id", JsValue.num 1)], [("id", JsValue.num 2)]]
        [[("id", JsValue.num 101), ("userId", JsValue.num 1)],
         [("id", JsValue.num 102), ("userId", JsValue.num 1)],
         [("id", JsValue.num 103), ("userId", JsValue.num 2)]]
        "id" "userId" "orders")[0]? = some (setField p "orders" (l.head?.getD .null)) :=
  claim_C5.1 [[("id", JsValue.num 1)], [("id", JsValue.num 2)]]
    [[("id", JsValue.num 101), ("userId", JsValue.num 1)],
     [("id", JsValue.num 102), ("userId", JsValue.num 1)],
     [("id", JsValue.num 103), ("userId", JsValue.num 2)]]
    "id" "userId" "orders" 0 (by decide)

theorem objKeys_of_no_index {α : Type} (o : List (String × α))
    (h : ∀ p ∈ o, isArrayIndexStr p.1 = false) :
    objKeys o = o.map Prod.fst := by
  unfold objKeys objEntries
  have h1 : (o.filter fun p => isArrayIndexStr p.1) = [] := by
    rw [List.filter_eq_nil_iff]
    intro p hp
    simp [h p hp]
  have h2 : (o.filter fun p => !isArrayIndexStr p.1) = o := by
    rw [List.filter_eq_self]
    intro p hp
    simp [h p hp]
  rw [h1, h2]
  rfl

/-- C6 (counterexample): with integer-like keys `groupBy`'s mapping
enumerates keys in ascending numeric order, not first-seen order —
grouping records with keys 2 then 1 yields key order ["1", "2"] while
first-seen order is ["2", "1"]. -/
theorem claim_C6_counterexample :
    objKeys (groupBy [[("a", JsValue.num 2)], [("a", JsValue.num 1)]]
        fun r => getField r "a") = ["1", "2"]
  ∧ firstSeen ([[("a", JsValue.num 2)], [("a", JsValue.num 1)]].map
        fun r => jsToString (getField r "a")) = ["2", "1"]
  ∧ decide (objKeys (groupBy [[("a", JsValue.num 2)], [("a", JsValue.num 1)]]
        fun r => getField r "a")
      = firstSeen ([[("a", JsValue.num 2)], [("a", JsValue.num 1)]].map
        fun r => jsToString (getField r "a"))) = false := by
  refine ⟨?_, ?_, ?_⟩ <;> decide

/-- C6 (amended): `groupBy` is a single pass whose groups each list
their records in input order; its keys appear in first-seen order
provided no key stringifies to an array-index string — integer-like keys
are instead enumerated first in ascending numeric order (ECMAScript
property order). -/
theorem claim_C6_amended (items : List Rec) (sel : Rec → JsValue) :
    ((∀ r ∈ items, isArrayIndexStr (jsToString (sel r)) = false) →
      objKeys (groupBy items sel)
        = firstSeen (items.map fun r => jsToString (sel r)))
  ∧ ∀ s, (mapGet (groupBy items sel) s).getD []
      = items.filter fun r => decide (jsToString (sel r) = s) := by
  constructor
  · intro h
    have hkeys : (groupBy items sel).map Prod.fst
        = firstSeen (items.map fun r => jsToString (sel r)) := by
      have hk := keys_groupFold items (fun r => jsToString (sel r)) []
      simpa [firstSeen, groupBy, indexMany] using hk
    have hsub : ∀ p ∈ groupBy items sel, isArrayIndexStr p.1 = false := by
      intro p hp
      have hpk : p.1 ∈ (groupBy items sel).map Prod.fst :=
        List.mem_map.mpr ⟨p, hp, rfl⟩
      rw [hkeys, firstSeen] at hpk
      have := (mem_firstSeenAux [] _ p.1).mp hpk
      rcases List.mem_map.mp this.1 with ⟨r, hr, hrk⟩
      rw [← hrk]
      exact h r hr
    rw [objKeys_of_no_index _ hsub, hkeys]
  · intro s
    exact mapGetD_indexMany items (fun r => jsToString (sel r)) s

/-- C6 witness: with plain string keys the keys do come out in
first-seen order. -/
theorem claim_C6_witness :
    objKeys (groupBy [[("role", JsValue.str "admin")], [("role", JsValue.str "user")],
        [("role", JsValue.str "admin")]] fun r => getField r "role")
      = firstSeen ([[("role", JsValue.str "admin")], [("role", JsValue.str "user")],
        [("role", JsValue.str "admin")]].map fun r => jsToString (getField r "role")) :=
  (claim_C6_amended [[("role", JsValue.str "admin")], [("role", JsValue.str "user")],
    [("role", JsValue.str "admin")]] fun r => getField r "role").1 (by decide)

/-- C9: enrichment never edits a record in place — in the pure model
every operator maps each parent to `setField parent outputField value`,
where `setField` preserves every original field's value, makes the new
field read back as the attached value, and (when the name is fresh)
appends exactly one field; in the three-level join each attached middle
record is likewise `setField mid childField value`. -/
theorem claim_C9 :
    (∀ (r : Rec) (k : String) (v : JsValue) (f : String), ¬ f = k →
      getField (setField r k v) f = getField r f)
  ∧ (∀ (r : Rec) (k : String) (v : JsValue), getField (setField r k v) k = v)
  ∧ (∀ (r : Rec) (k : String) (v : JsValue),
      (r.any fun p => p.1 = k) = false →
      (setField r k v).map Prod.fst = r.map Prod.fst ++ [k])
  ∧ (∀ (ps cs : List Rec) (pk ck as : String),
      ∃ f : Rec → JsValue, attachChildren ps cs pk ck as
        = ps.map fun p => setField p as (f p))
  ∧ (∀ (ps cs : List Rec) (pk ck as : String),
      ∃ f : Rec → JsValue, attachChild ps cs pk ck as
        = ps.map fun p => setField p as (f p))
  ∧ (∀ (ps cs : List Rec) (psel csel : Rec → JsValue) (as : String)
        (mode : Cardinality),
      ∃ f : Rec → JsValue, joinBySelectors ps cs psel csel as mode
        = ps.map fun p => setField p as (f p))
  ∧ (∀ (ps cs : List Rec) (pks cks : List String) (as : String),
      (∃ f : Rec → JsValue, attachChildrenComposite ps cs pks cks as
        = ps.map fun p => setField p as (f p)) ∧
      (∃ f : Rec → JsValue, attachChildComposite ps cs pks cks as
        = ps.map fun p => setField p as (f p)) ∧
      (∃ f : Rec → JsValue, attachChildrenNested ps cs pks cks as
        = ps.map fun p => setField p as (f p)) ∧
      (∃ f : Rec → JsValue, attachChildNested ps cs pks cks as
        = ps.map fun p => setField p as (f p)))
  ∧ (∀ (ps ms cs : List Rec) (pk cpk mk ck mAs cAs : String)
        (mCard cCard : Cardinality),
      ∃ (f : Rec → JsValue) (g : Rec → Rec → JsValue),
        attachChildrenWithFilter ps ms cs pk cpk mk ck mAs cAs mCard cCard
          = ps.map (fun p => setField p mAs (f p)) ∧
        ∀ p, f p = resolveCard mCard
          ((ms.map fun mid => setField mid cAs (g p mid)).map .obj)) := by
  refine ⟨getField_setField_ne, getField_setField_self, keys_setField_absent,
    ?_, ?_, ?_, ?_, ?_⟩
  · intro ps cs pk ck as
    exact ⟨_, rfl⟩
  · intro ps cs pk ck as
    exact ⟨_, rfl⟩
  · intro ps cs psel csel as mode
    cases mode with
    | one => exact ⟨_, rfl⟩
    | many => exact ⟨_, rfl⟩
  · intro ps cs pks cks as
    exact ⟨⟨_, rfl⟩, ⟨_, rfl⟩, ⟨_, rfl⟩, ⟨_, rfl⟩⟩
  · intro ps ms cs pk cpk mk ck mAs cAs mCard cCard
    exact ⟨_, _, rfl, fun p => rfl⟩

/-- C9 witness: the frame property instantiated — enriching a concrete
record with a fresh field keeps the original field readable, makes the
new field read back, and appends exactly one key. -/
theorem claim_C9_witness :
    getField (setField [("id", JsValue.num 1)] "orders" (JsValue.arr [])) "id"
        = getField [("id", JsValue.num 1)] "id"
  ∧ getField (setField [("id", JsValue.num 1)] "orders" (JsValue.arr [])) "orders"
        = JsValue.arr []
  ∧ (setField [("id", JsValue.num 1)] "orders" (JsValue.arr [])).map Prod.fst
        = [("id", JsValue.num 1)].map Prod.fst ++ ["orders"] :=
  ⟨claim_C9.1 [("id", JsValue.num 1)] "orders" (JsValue.arr []) "id" (by decide),
   claim_C9.2.1 [("id", JsValue.num 1)] "orders" (JsValue.arr []),
   claim_C9.2.2.1 [("id", JsValue.num 1)] "orders" (JsValue.arr []) (by decide)⟩

/-- C8 witness: the amended lookup law applied at a concrete tree, with
the path-length hypotheses discharged. -/
theorem claim_C8_witness :
    (getFromNestedGroups (createNestedGroups [[("a", JsValue.num 1)]] ["a"])
        [JsValue.num 1]
      = ngLookupSpec [[("a", JsValue.num 1)]] ["a"] [JsValue.num 1])
  ∧ ngLookupSpec [[("a", JsValue.num 1)]] ["a", "b"] [JsValue.num 1] = [] :=
  ⟨claim_C8_amended.1 [[("a", JsValue.num 1)]] ["a"] [JsValue.num 1] (by decide),
   claim_C8_amended.2.1 [[("a", JsValue.num 1)]] ["a", "b"] [JsValue.num 1] (by decide)⟩

/-- C1 (counterexample): the two composite-key strategies are not
identical on all inputs — a parent whose key value is `null` joins, under
the serialized strategy, with a child whose key value is the empty
string (both serialize to ""), while the nested strategy rejects the
`null` path component and attaches the empty sequence. -/
theorem claim_C1_counterexample :
    attachChildrenComposite [[("k", JsValue.null)]] [[("k", JsValue.str "")]]
        ["k"] ["k"] "m"
      = [[("k", JsValue.null), ("m", JsValue.arr [JsValue.obj [("k", JsValue.str "")]])]]
  ∧ attachChildrenNested [[("k", JsValue.null)]] [[("k", JsValue.str "")]]
        ["k"] ["k"] "m"
      = [[("k", JsValue.null), ("m", JsValue.arr [])]]
  ∧ decide (attachChildrenComposite [[("k", JsValue.null)]] [[("k", JsValue.str "")]]
        ["k"] ["k"] "m"
      = attachChildrenNested [[("k", JsValue.null)]] [[("k", JsValue.str "")]]
        ["k"] ["k"] "m") = false := by
  refine ⟨?_, ?_, ?_⟩ <;> decide

/-- C1 (amended): on equal-arity key tuples whose key values are all
strings not containing the pipe character (hence free of the serializer
separator and not null/undefined), the serialized-key strategy and the
nested-index strategy produce field-for-field identical join results,
both one-to-many and one-to-one. -/
theorem claim_C1_amended (ps cs : List Rec) (pks cks : List String) (as : String)
    (hlen : pks.length = cks.length)
    (hp : ∀ p ∈ ps, ∀ k ∈ pks, pipeFreeStr (getField p k) = true)
    (hc : ∀ c ∈ cs, ∀ k ∈ cks, pipeFreeStr (getField c k) = true) :
    attachChildrenComposite ps cs pks cks as = attachChildrenNested ps cs pks cks as
  ∧ attachChildComposite ps cs pks cks as = attachChildNested ps cs pks cks as := by
  have hfilter : ∀ p ∈ ps,
      (cs.filter fun c => decide (getCompositeKey c cks = getCompositeKey p pks))
        = cs.filter fun c => decide (keyStrTuple c cks = keyStrTuple p pks) := by
    intro p hpmem
    apply List.filter_congr
    intro c hcmem
    have hpj : getCompositeKey p pks = joinWithSep (keyStrTuple p pks) :=
      getCompositeKey_eq_join p pks (hp p hpmem)
    have hcj : getCompositeKey c cks = joinWithSep (keyStrTuple c cks) :=
      getCompositeKey_eq_join c cks (hc c hcmem)
    refine decide_eq_decide.mpr ?_
    constructor
    · intro h
      rw [hpj, hcj] at h
      exact joinWithSep_inj _ _ (by simp [keyStrTuple, hlen])
        (keyStrTuple_pipeFree c cks (hc c hcmem))
        (keyStrTuple_pipeFree p pks (hp p hpmem)) h
    · intro h
      rw [hpj, hcj, h]
  have hspec : ∀ p ∈ ps,
      ngLookupSpec cs cks (pks.map fun k => getField p k)
        = (cs.filter fun c =>
            decide (keyStrTuple c cks = keyStrTuple p pks)).map .obj := by
    intro p hpmem
    unfold ngLookupSpec
    rw [if_pos (by simpa using hlen)]
    rw [if_neg ?hnul]
    case hnul =>
      intro hx
      rcases List.any_eq_true.mp hx with ⟨v, hv, hvn⟩
      rcases List.mem_map.mp hv with ⟨k, hk, hkv⟩
      have := not_nullish_of_pipeFree (getField p k) (hp p hpmem k hk)
      rw [hkv] at this
      rw [this] at hvn
      cases hvn
    have hpath : (pks.map fun k => getField p k).map jsToString
        = keyStrTuple p pks := by
      rw [List.map_map]
      rfl
    rw [hpath]
  constructor
  · rw [attachChildrenComposite_eq, attachChildrenNested_eq _ _ _ _ _ hlen]
    apply List.map_congr_left
    intro p hpmem
    rw [hspec p hpmem, hfilter p hpmem]
  · rw [attachChildComposite_eq, attachChildNested_eq _ _ _ _ _ hlen]
    apply List.map_congr_left
    intro p hpmem
    rw [find?_eq_head?_filter, hfilter p hpmem, hspec p hpmem,
      List.head?_map]

/-- C1 witness: the spec's composite-key scenario — only the matching
inventory row attaches, identically via both strategies. -/
theorem claim_C1_witness :
    attachChildrenComposite [[("sku", JsValue.str "A"), ("origin", JsValue.str "US")]]
        [[("sku", JsValue.str "A"), ("origin", JsValue.str "US"), ("qty", JsValue.num 5)],
         [("sku", JsValue.str "A"), ("origin", JsValue.str "EU"), ("qty", JsValue.num 9)]]
        ["sku", "origin"] ["sku", "origin"] "inv"
      = attachChildrenNested [[("sku", JsValue.str "A"), ("origin", JsValue.str "US")]]
        [[("sku", JsValue.str "A"), ("origin", JsValue.str "US"), ("qty", JsValue.num 5)],
         [("sku", JsValue.str "A"), ("origin", JsValue.str "EU"), ("qty", JsValue.num 9)]]
        ["sku", "origin"] ["sku", "origin"] "inv"
  ∧ attachChildComposite [[("sku", JsValue.str "A"), ("origin", JsValue.str "US")]]
        [[("sku", JsValue.str "A"), ("origin", JsValue.str "US"), ("qty", JsValue.num 5)],
         [("sku", JsValue.str "A"), ("origin", JsValue.str "EU"), ("qty", JsValue.num 9)]]
        ["sku", "origin"] ["sku", "origin"] "inv"
      = attachChildNested [[("sku", JsValue.str "A"), ("origin", JsValue.str "US")]]
        [[("sku", JsValue.str "A"), ("origin", JsValue.str "US"), ("qty", JsValue.num 5)],
         [("sku", JsValue.str "A"), ("origin", JsValue.str "EU"), ("qty", JsValue.num 9)]]
        ["sku", "origin"] ["sku", "origin"] "inv" :=
  claim_C1_amended [[("sku", JsValue.str "A"), ("origin", JsValue.str "US")]]
    [[("sku", JsValue.str "A"), ("origin", JsValue.str "US"), ("qty", JsValue.num 5)],
     [("sku", JsValue.str "A"), ("origin", JsValue.str "EU"), ("qty", JsValue.num 9)]]
    ["sku", "origin"] ["sku", "origin"] "inv" (by decide) (by decide) (by decide)

end TsArrayJoins
